import Mathlib

/-!
Verification of the Matching & Ranking Engine of the FT_bot repository.

The Python modules under `src/modules/` are shallowly embedded below:
real-valued scores become rationals (`ℚ`), Python's `round(x, 4)` becomes
`round4` (round half to even at four decimal places, the semantics of
Python's `round`), dictionaries become association lists or functions to
`Option`, and the exceptional outcome of a call becomes an `Except` value.
Every definition mirrors one function of the source; the theorems at the
end settle the frozen claims about those functions.
-/

namespace FTBot

/-! ### Rounding: model of Python `round(x, 4)` (round half to even) -/

/-- Round a rational to the nearest integer, ties to even, as Python's
built-in `round` does on the underlying real value.  `Rat.floor` is used
rather than `⌊·⌋` so that the definition evaluates inside the kernel. -/
def rhe (x : ℚ) : ℤ :=
  if x - (x.floor : ℚ) < 1/2 then x.floor
  else if 1/2 < x - (x.floor : ℚ) then x.floor + 1
  else if x.floor % 2 = 0 then x.floor else x.floor + 1

/-- Model of Python `round(q, 4)`. -/
def round4 (q : ℚ) : ℚ := ((rhe (q * 10000) : ℤ) : ℚ) / 10000

theorem ratFloor_eq (x : ℚ) : x.floor = ⌊x⌋ := by
  rw [Rat.floor_def', Rat.floor_def]

theorem le_rhe {n : ℤ} {x : ℚ} (h : (n : ℚ) ≤ x) : n ≤ rhe x := by
  have hf : n ≤ ⌊x⌋ := Int.le_floor.mpr h
  unfold rhe
  rw [ratFloor_eq]
  split_ifs <;> omega

theorem rhe_le {n : ℤ} {x : ℚ} (h : x ≤ (n : ℚ)) : rhe x ≤ n := by
  have hfn : ⌊x⌋ ≤ n := by
    have h2 := Int.floor_mono h
    rwa [Int.floor_intCast] at h2
  have hstrict : ¬ (x - (⌊x⌋ : ℚ) < 1/2) → ⌊x⌋ < n := by
    intro h1
    push_neg at h1
    have hx : (⌊x⌋ : ℚ) < x := by linarith
    have : (⌊x⌋ : ℚ) < (n : ℚ) := lt_of_lt_of_le hx h
    exact_mod_cast this
  unfold rhe
  rw [ratFloor_eq]
  split_ifs with h1 h2 h3
  · exact hfn
  · have := hstrict h1; omega
  · exact hfn
  · have := hstrict h1; omega

theorem round4_zero : round4 0 = 0 := by
  have h : rhe ((0 : ℚ) * 10000) = 0 := by
    have h1 : ((0:ℤ) : ℚ) ≤ (0 : ℚ) * 10000 := by norm_num
    have h2 : (0 : ℚ) * 10000 ≤ ((0:ℤ) : ℚ) := by norm_num
    have := le_rhe h1
    have := rhe_le h2
    omega
  rw [round4, h]
  norm_num

theorem round4_one : round4 1 = 1 := by
  have h : rhe ((1 : ℚ) * 10000) = 10000 := by
    have h1 : ((10000:ℤ) : ℚ) ≤ (1 : ℚ) * 10000 := by norm_num
    have h2 : (1 : ℚ) * 10000 ≤ ((10000:ℤ) : ℚ) := by norm_num
    have := le_rhe h1
    have := rhe_le h2
    omega
  rw [round4, h]
  norm_num

theorem round4_nonneg {q : ℚ} (h : 0 ≤ q) : 0 ≤ round4 q := by
  unfold round4
  apply div_nonneg _ (by norm_num)
  have h0 : ((0:ℤ) : ℚ) ≤ q * 10000 := by positivity
  have := le_rhe h0
  exact_mod_cast this

theorem round4_le_one {q : ℚ} (h : q ≤ 1) : round4 q ≤ 1 := by
  unfold round4
  rw [div_le_one (by norm_num)]
  have h0 : q * 10000 ≤ ((10000:ℤ) : ℚ) := by push_cast; nlinarith
  have := rhe_le h0
  exact_mod_cast this

theorem round4_nonpos {q : ℚ} (h : q ≤ 0) : round4 q ≤ 0 := by
  unfold round4
  have h0 : q * 10000 ≤ ((0:ℤ) : ℚ) := by push_cast; nlinarith
  have h1 : rhe (q * 10000) ≤ 0 := rhe_le h0
  have h2 : ((rhe (q * 10000) : ℤ) : ℚ) ≤ 0 := by exact_mod_cast h1
  have h3 : (0 : ℚ) < 10000 := by norm_num
  exact div_nonpos_of_nonpos_of_nonneg h2 (le_of_lt h3)

/-- Flooring at 0 and rounding commute: `max(0, round(x,4)) = round(max(0,x),4)`. -/
theorem max0_round4 (x : ℚ) : max 0 (round4 x) = round4 (max 0 x) := by
  rcases le_total x 0 with hx | hx
  · rw [max_eq_left (round4_nonpos hx), max_eq_left hx, round4_zero]
  · rw [max_eq_right (round4_nonneg hx), max_eq_right hx]

/-! ### ExperienceScorer (`src/modules/experience_scorer.py`) -/

/-- `ExperienceScorer.score`; `penalty` is `self.PENALTY_PER_YEAR`
(default `0.15`), fixed at construction. -/
def ExperienceScorer.score (penalty : ℚ) (candidate_years required_years : ℚ) : ℚ :=
  -- candidate_years = max(0.0, float(candidate_years or 0.0)), same for required
  let c := max 0 candidate_years
  let r := max 0 required_years
  if r = 0 then 1
  else if r ≤ c then 1
  else max 0 (round4 (1 - (r - c) * penalty))

/-! ### EducationScorer (`src/modules/education_scorer.py`) -/

/-- ASCII lower-casing, the behaviour of Python `str.lower()` on the
keyword alphabet used by the scorer. -/
def lowerStr (s : String) : String := ⟨s.data.map Char.toLower⟩

/-- `EducationScorer.EDUCATION_LEVELS`, scanned highest level first. -/
def EducationScorer.EDUCATION_LEVELS : List (ℕ × List String) :=
  [ (5, ["phd", "ph.d", "doctorate", "doctoral"]),
    (4, ["master", "msc", "m.s.", "m.s ", " ms ", "mba", "m.eng", "m.tech"]),
    (3, ["bachelor", "bsc", "b.s.", "b.s ", "bs ", "b.eng", "b.tech",
         "undergraduate", "college degree"]),
    (2, ["associate", "a.s.", "a.a."]),
    (1, ["high school", "secondary school", "ged", "hsc", "secondary"]) ]

/-- `EducationScorer._detect_level`: empty/whitespace text is level 0,
otherwise the first level (highest first) one of whose keywords occurs
as a substring of the lower-cased text; 0 when none matches. -/
def EducationScorer.detectLevel (text : String) : ℕ :=
  if text.data.all (fun c => c.isWhitespace) then 0
  else
    match EducationScorer.EDUCATION_LEVELS.find?
        (fun lv => lv.2.any (fun kw => decide (kw.data <:+: (lowerStr text).data))) with
    | some lv => lv.1
    | none => 0

/-- `EducationScorer.score` with the class constants
`PENALTY_PER_LEVEL = 0.20` and `UNKNOWN_SCORE = 0.30`. -/
def EducationScorer.score (candidate_education required_education : String) : ℚ :=
  let required_level := EducationScorer.detectLevel required_education
  let candidate_level := EducationScorer.detectLevel candidate_education
  if required_level = 0 then 1
  else if candidate_level = 0 then 3/10
  else if required_level ≤ candidate_level then 1
  else max 0 (round4 (1 - ((required_level - candidate_level : ℕ) : ℚ) * (2/10)))

/-! ### ScoreNormalizer (`src/modules/score_normalizer.py`) -/

/-- Python `min(scores)` on a non-empty list (0 on `[]`, never used there). -/
def listMin : List ℚ → ℚ
  | [] => 0
  | x :: xs => xs.foldl min x

/-- Python `max(scores)` on a non-empty list (0 on `[]`, never used there). -/
def listMax : List ℚ → ℚ
  | [] => 0
  | x :: xs => xs.foldl max x

/-- `ScoreNormalizer.normalize`. -/
def ScoreNormalizer.normalize (scores : List ℚ) : List ℚ :=
  match scores with
  | [] => []
  | [_] => [1]
  | _ :: _ :: _ =>
    let mn := listMin scores
    let mx := listMax scores
    if mx = mn then List.replicate scores.length 1
    else scores.map (fun s => round4 (max 0 (min 1 ((s - mn) / (mx - mn)))))

/-! ### PercentileCalculator (`src/modules/percentile_calculator.py`) -/

/-- `PercentileCalculator.calculate`. -/
def PercentileCalculator.calculate (scores : List ℚ) : List ℚ :=
  match scores with
  | [] => []
  | [_] => [1]
  | _ :: _ :: _ =>
    scores.map (fun s =>
      round4 (((scores.countP (fun t => decide (t < s)) : ℕ) : ℚ) / (scores.length : ℚ)))

/-! ### ScoreAggregator (`src/modules/score_aggregator.py`)

The Python weight dictionary is modelled as an association list of
`(key, value)` pairs; a `dict` never repeats a key, and lookup takes the
first matching entry. -/

/-- Python `max(0.0, min(1.0, x))`, the clamp used throughout the engine. -/
def clamp01 (x : ℚ) : ℚ := max 0 (min 1 x)

/-- `ScoreAggregator.DEFAULT_WEIGHTS`. -/
def ScoreAggregator.DEFAULT_WEIGHTS : List (String × ℚ) :=
  [("semantic", 30/100), ("skills", 40/100), ("experience", 20/100), ("education", 10/100)]

/-- The `required_keys` set of `ScoreAggregator._validate_weights`. -/
def ScoreAggregator.requiredKeys : List String :=
  ["semantic", "skills", "experience", "education"]

/-- Dictionary lookup `weights[k]` (defaulting to 0, which validation
makes unreachable for the four required keys). -/
def lookupW (w : List (String × ℚ)) (k : String) : ℚ :=
  match w.find? (fun p => p.1 == k) with
  | some p => p.2
  | none => 0

/-- `ScoreAggregator._validate_weights`: all four keys must be present and
all values must sum to 1.0 within `1e-6`, else a `ValueError`. -/
def ScoreAggregator.validateWeights (w : List (String × ℚ)) : Except String Unit :=
  if ¬ (ScoreAggregator.requiredKeys.all (fun k => (w.map Prod.fst).contains k)) then
    Except.error "Missing weight keys"
  else if 1/1000000 < |(w.map Prod.snd).sum - 1| then
    Except.error "Weights must sum to 1.0"
  else Except.ok ()

/-- `ScoreAggregator.__init__`: `self.weights = weights or DEFAULT_WEIGHTS.copy()`
(so `None` and the falsy empty dict both fall back to the defaults), then
`_validate_weights`.  Returns the accepted weight set or the raised error. -/
def ScoreAggregator.init (weights : Option (List (String × ℚ))) :
    Except String (List (String × ℚ)) :=
  let w := match weights with
    | none => ScoreAggregator.DEFAULT_WEIGHTS
    | some l => if l = [] then ScoreAggregator.DEFAULT_WEIGHTS else l
  match ScoreAggregator.validateWeights w with
  | Except.ok _ => Except.ok w
  | Except.error e => Except.error e

/-- `ScoreAggregator.aggregate`: clamp the four inputs to [0,1], take the
weighted sum, clamp, round to 4 decimals. -/
def ScoreAggregator.aggregate (w : List (String × ℚ))
    (semantic_score skills_score experience_score education_score : ℚ) : ℚ :=
  let semantic := clamp01 semantic_score
  let skills := clamp01 skills_score
  let experience := clamp01 experience_score
  let education := clamp01 education_score
  let overall := semantic * lookupW w "semantic" + skills * lookupW w "skills"
    + experience * lookupW w "experience" + education * lookupW w "education"
  round4 (clamp01 overall)

/-! ### SkillsMatcher (`src/modules/skills_matcher.py`)

Embeddings are lists of rationals.  The floating-point cosine kernel
`SkillsMatcher._cosine_similarity` computes `dot/(‖a‖·‖b‖)`, an
irrational real; it is abstracted as a parameter `cos` below, and the
theorems hold for every kernel (real cosine similarity satisfies
`cos a b ≤ 1`, the bound some statements assume). -/

/-- An embedding vector. -/
abbrev Emb := List ℚ

/-- `SkillsMatcher._partial_string_score`: 1.0 when either lower-cased
skill string contains the other as a substring, else 0.0. -/
def SkillsMatcher.substringScore (skill_a skill_b : String) : ℚ :=
  if (lowerStr skill_a).data <:+: (lowerStr skill_b).data
      ∨ (lowerStr skill_b).data <:+: (lowerStr skill_a).data then 1 else 0

/-- Tier 2 of `SkillsMatcher._find_best_match`: embedding cosine
similarity when both embeddings exist, else the substring fallback. -/
def SkillsMatcher.tierScore (cos : Emb → Emb → ℚ) (jobEmb resumeEmb : Option Emb)
    (resumeSkill jobSkill : String) : ℚ :=
  match jobEmb, resumeEmb with
  | some je, some re => cos re je
  | _, _ => SkillsMatcher.substringScore resumeSkill jobSkill

/-- The loop of `SkillsMatcher._find_best_match` over the resume skills,
carrying the running `(best_score, best_resume_skill)`. -/
def SkillsMatcher.findBestAux (cos : Emb → Emb → ℚ) (jobEmb : Option Emb)
    (rEmb : String → Option Emb) (jobSkill : String) :
    List String → ℚ × String → ℚ × String
  | [], best => best
  | r :: rest, best =>
    if lowerStr r = lowerStr jobSkill then (1, r)
    else if best.1 < SkillsMatcher.tierScore cos jobEmb (rEmb r) r jobSkill then
      SkillsMatcher.findBestAux cos jobEmb rEmb jobSkill rest
        (SkillsMatcher.tierScore cos jobEmb (rEmb r) r jobSkill, r)
    else SkillsMatcher.findBestAux cos jobEmb rEmb jobSkill rest best

/-- `SkillsMatcher._find_best_match`. -/
def SkillsMatcher.findBestMatch (cos : Emb → Emb → ℚ) (jobSkill : String)
    (resume_skills : List String) (rEmb jEmb : String → Option Emb) : ℚ × String :=
  SkillsMatcher.findBestAux cos (jEmb jobSkill) rEmb jobSkill resume_skills (0, "")

/-- Result dictionary of `SkillsMatcher.match`; `skill_similarities` keeps
dict insertion order as an association list. -/
structure SkillsResult where
  skills_score : ℚ
  matched_skills : List String
  missing_skills : List String
  bonus_skills : List String
  skill_similarities : List (String × ℚ)
deriving DecidableEq

/-- `SkillsMatcher._match_required_skills`: returns
`(matched, missing, similarities)` in required-skill order. -/
def SkillsMatcher.matchRequired (cos : Emb → Emb → ℚ) (thr : ℚ)
    (resume_skills : List String) (rEmb jEmb : String → Option Emb) :
    List String → List String × List String × List (String × ℚ)
  | [] => ([], [], [])
  | j :: rest =>
    let best := (SkillsMatcher.findBestMatch cos j resume_skills rEmb jEmb).1
    let r := SkillsMatcher.matchRequired cos thr resume_skills rEmb jEmb rest
    if thr ≤ best then (j :: r.1, r.2.1, (j, round4 best) :: r.2.2)
    else (r.1, j :: r.2.1, (j, round4 best) :: r.2.2)

/-- `SkillsMatcher._match_nice_to_have`. -/
def SkillsMatcher.matchNice (cos : Emb → Emb → ℚ) (thr : ℚ)
    (resume_skills : List String) (rEmb jEmb : String → Option Emb) :
    List String → List String
  | [] => []
  | j :: rest =>
    if thr ≤ (SkillsMatcher.findBestMatch cos j resume_skills rEmb jEmb).1 then
      j :: SkillsMatcher.matchNice cos thr resume_skills rEmb jEmb rest
    else SkillsMatcher.matchNice cos thr resume_skills rEmb jEmb rest

/-- `SkillsMatcher._empty_result`. -/
def SkillsMatcher.emptyResult (score : ℚ) (missing_skills : List String) : SkillsResult :=
  ⟨score, [], missing_skills, [], []⟩

/-- `SkillsMatcher.match` (`matchSkills`, since `match` is a Lean keyword);
`thr` is `self.MATCH_THRESHOLD` (default 0.65). -/
def SkillsMatcher.matchSkills (cos : Emb → Emb → ℚ) (thr : ℚ)
    (resume_skills job_required_skills job_nice_to_have_skills : List String)
    (rEmb jEmb : String → Option Emb) : SkillsResult :=
  if job_required_skills = [] then SkillsMatcher.emptyResult 1 []
  else if resume_skills = [] then SkillsMatcher.emptyResult 0 job_required_skills
  else
    let t := SkillsMatcher.matchRequired cos thr resume_skills rEmb jEmb job_required_skills
    { skills_score := round4 ((t.1.length : ℚ) / (job_required_skills.length : ℚ))
      matched_skills := t.1
      missing_skills := t.2.1
      bonus_skills := SkillsMatcher.matchNice cos thr resume_skills rEmb jEmb
        job_nice_to_have_skills
      skill_similarities := t.2.2 }

/-! ### MatchResult and MatchingEngine
(`src/modules/match_result.py`, `src/modules/matching_engine.py`) -/

/-- The score fields and skill lists of `MatchResult` (timestamp and
version tag carry no behaviour and are omitted). -/
structure MatchResult where
  overall_score : ℚ
  semantic_score : ℚ
  skills_score : ℚ
  experience_score : ℚ
  education_score : ℚ
  matched_skills : List String
  missing_skills : List String
  bonus_skills : List String
  skill_similarities : List (String × ℚ)
deriving DecidableEq

/-- `MatchingEngine.match`, steps 1–6.  Each sub-scorer invocation is one
`Except` argument: `Except.ok v` is a normal return of `v`,
`Except.error ()` a raised exception, which the corresponding
`_compute_*` helper catches, substituting the documented fallback
(semantic → 0.0; skills → score 0.0 with every required job skill
missing; experience → 0.0; education → 0.3). `w` is the validated weight
set of the aggregator built at engine construction, `jobRequired` the
job's `required_hard_skills`. -/
def MatchingEngine.matchFrom (w : List (String × ℚ)) (jobRequired : List String)
    (semanticOut : Except Unit ℚ) (skillsOut : Except Unit SkillsResult)
    (experienceOut : Except Unit ℚ) (educationOut : Except Unit ℚ) : MatchResult :=
  let semantic_score := match semanticOut with
    | Except.ok v => v
    | Except.error _ => 0
  let skills_result := match skillsOut with
    | Except.ok r => r
    | Except.error _ => ⟨0, [], jobRequired, [], []⟩
  let experience_score := match experienceOut with
    | Except.ok v => v
    | Except.error _ => 0
  let education_score := match educationOut with
    | Except.ok v => v
    | Except.error _ => 3/10
  let overall_score := ScoreAggregator.aggregate w semantic_score
    skills_result.skills_score experience_score education_score
  { overall_score := overall_score
    semantic_score := semantic_score
    skills_score := skills_result.skills_score
    experience_score := experience_score
    education_score := education_score
    matched_skills := skills_result.matched_skills
    missing_skills := skills_result.missing_skills
    bonus_skills := skills_result.bonus_skills
    skill_similarities := skills_result.skill_similarities }

/-! ### RankingResult and the two pool rankers
(`src/modules/ranking_result.py`, `src/modules/multi_resume_ranker.py`,
`src/modules/multi_job_ranker.py`, `src/modules/ranking_engine.py`) -/

/-- `RankingResult` (version tag and timestamp omitted as above). -/
structure RankingResult where
  rank : ℕ
  resume_id : String
  job_id : String
  match_result : Option MatchResult
  percentile : ℚ
  normalized_score : ℚ
deriving DecidableEq

/-- The `overall_score` property: delegates to the wrapped `match_result`,
0.0 when it is `None`. -/
def RankingResult.overall_score (r : RankingResult) : ℚ :=
  match r.match_result with
  | none => 0
  | some m => m.overall_score

/-- One `RankingResult(...)` construction of step 4 of the rankers:
`idIsJob = true` is `MultiJobRanker` (`resume_id` left empty),
`idIsJob = false` is `MultiResumeRanker` (`job_id` left empty). -/
def rankOne (idIsJob : Bool) (p : String × MatchResult) (nz pc : ℚ) : RankingResult :=
  { rank := 0
    resume_id := if idIsJob then "" else p.1
    job_id := if idIsJob then p.1 else ""
    match_result := some p.2
    percentile := round4 pc
    normalized_score := round4 nz }

/-- Steps 1–4 of `rank`: score the pool (a pool member is its identifier
paired with the `MatchResult` the engine's `match` returned for it),
normalize, compute percentiles, build unranked results in pool order. -/
def unsortedResults (idIsJob : Bool) (pool : List (String × MatchResult)) :
    List RankingResult :=
  let raw_scores := pool.map (fun p => p.2.overall_score)
  let normalized_scores := ScoreNormalizer.normalize raw_scores
  let percentiles := PercentileCalculator.calculate raw_scores
  (pool.zip (normalized_scores.zip percentiles)).map
    (fun q => rankOne idIsJob q.1 q.2.1 q.2.2)

/-- The sort key order of step 5: descending by `overall_score`.  Python's
`sorted(..., key=..., reverse=True)` is a stable sort, which
`List.insertionSort` with this (total, transitive) relation reproduces
exactly: an element is inserted before the equal-scored elements that
follow it in the original order. -/
def scoreGE (a b : RankingResult) : Prop := b.overall_score ≤ a.overall_score

instance : DecidableRel scoreGE := fun a b =>
  inferInstanceAs (Decidable (b.overall_score ≤ a.overall_score))

/-- Step 6 of `rank`: `for position, result in enumerate(ranked, start=1):
result.rank = position`. -/
def assignRanks : ℕ → List RankingResult → List RankingResult
  | _, [] => []
  | n, r :: rs => { r with rank := n } :: assignRanks (n + 1) rs

/-- The shared body of `MultiResumeRanker.rank` and `MultiJobRanker.rank`
(the two Python methods are line-for-line duplicates differing only in
which identifier field they leave empty). -/
def rankCore (idIsJob : Bool) (pool : List (String × MatchResult)) : List RankingResult :=
  if pool = [] then []
  else assignRanks 1 (List.insertionSort scoreGE (unsortedResults idIsJob pool))

/-- `MultiResumeRanker.rank`: many resumes against one job. -/
def MultiResumeRanker.rank (pool : List (String × MatchResult)) : List RankingResult :=
  rankCore false pool

/-- `MultiJobRanker.rank`: one resume against many jobs. -/
def MultiJobRanker.rank (pool : List (String × MatchResult)) : List RankingResult :=
  rankCore true pool

/-- `MultiResumeRanker.get_shortlist`: rank, keep `overall_score ≥
min_score`, truncate to the first `top_n` (`shortlist[:top_n]`). -/
def MultiResumeRanker.get_shortlist (pool : List (String × MatchResult))
    (top_n : ℕ) (min_score : ℚ) : List RankingResult :=
  ((MultiResumeRanker.rank pool).filter
    (fun r => decide (min_score ≤ r.overall_score))).take top_n

/-- `RankingEngine.rank_resumes_for_job` delegates to `MultiResumeRanker.rank`. -/
def RankingEngine.rank_resumes_for_job (pool : List (String × MatchResult)) :
    List RankingResult :=
  MultiResumeRanker.rank pool

/-- `RankingEngine.rank_jobs_for_resume` delegates to `MultiJobRanker.rank`. -/
def RankingEngine.rank_jobs_for_resume (pool : List (String × MatchResult)) :
    List RankingResult :=
  MultiJobRanker.rank pool

/-- `RankingEngine.shortlist_resumes` delegates to
`MultiResumeRanker.get_shortlist`. -/
def RankingEngine.shortlist_resumes (pool : List (String × MatchResult))
    (top_n : ℕ) (min_score : ℚ) : List RankingResult :=
  MultiResumeRanker.get_shortlist pool top_n min_score

/-! ### Helper lemmas -/

theorem clamp01_nonneg (x : ℚ) : 0 ≤ clamp01 x := le_max_left 0 _

theorem clamp01_le_one (x : ℚ) : clamp01 x ≤ 1 :=
  max_le (by norm_num) (min_le_left 1 x)

theorem clamp01_eq_self {x : ℚ} (h0 : 0 ≤ x) (h1 : x ≤ 1) : clamp01 x = x := by
  rw [clamp01, min_eq_right h1, max_eq_right h0]

theorem clamp01_idem (x : ℚ) : clamp01 (clamp01 x) = clamp01 x :=
  clamp01_eq_self (clamp01_nonneg x) (clamp01_le_one x)

theorem foldl_min_le_init (l : List ℚ) (a : ℚ) : l.foldl min a ≤ a := by
  induction l generalizing a with
  | nil => exact le_refl a
  | cons x t ih => exact le_trans (ih (min a x)) (min_le_left a x)

theorem foldl_min_le_mem (l : List ℚ) (a : ℚ) : ∀ x ∈ l, l.foldl min a ≤ x := by
  induction l generalizing a with
  | nil => intro x hx; cases hx
  | cons y t ih =>
    intro x hx
    rcases List.mem_cons.mp hx with rfl | hx2
    · exact le_trans (foldl_min_le_init t (min a x)) (min_le_right a x)
    · exact ih (min a y) x hx2

theorem foldl_min_mem (l : List ℚ) (a : ℚ) : l.foldl min a = a ∨ l.foldl min a ∈ l := by
  induction l generalizing a with
  | nil => exact Or.inl rfl
  | cons y t ih =>
    rcases ih (min a y) with h | h
    · rcases min_cases a y with ⟨he, _⟩ | ⟨he, _⟩
      · exact Or.inl (by rw [List.foldl_cons, h, he])
      · exact Or.inr (by rw [List.foldl_cons, h, he]; exact List.mem_cons_self y t)
    · exact Or.inr (List.mem_cons_of_mem y h)

theorem foldl_max_init_le (l : List ℚ) (a : ℚ) : a ≤ l.foldl max a := by
  induction l generalizing a with
  | nil => exact le_refl a
  | cons x t ih => exact le_trans (le_max_left a x) (ih (max a x))

theorem foldl_max_mem_le (l : List ℚ) (a : ℚ) : ∀ x ∈ l, x ≤ l.foldl max a := by
  induction l generalizing a with
  | nil => intro x hx; cases hx
  | cons y t ih =>
    intro x hx
    rcases List.mem_cons.mp hx with rfl | hx2
    · exact le_trans (le_max_right a x) (foldl_max_init_le t (max a x))
    · exact ih (max a y) x hx2

theorem foldl_max_mem (l : List ℚ) (a : ℚ) : l.foldl max a = a ∨ l.foldl max a ∈ l := by
  induction l generalizing a with
  | nil => exact Or.inl rfl
  | cons y t ih =>
    rcases ih (max a y) with h | h
    · rcases max_cases a y with ⟨he, _⟩ | ⟨he, _⟩
      · exact Or.inl (by rw [List.foldl_cons, h, he])
      · exact Or.inr (by rw [List.foldl_cons, h, he]; exact List.mem_cons_self y t)
    · exact Or.inr (List.mem_cons_of_mem y h)

theorem listMin_le {l : List ℚ} {x : ℚ} (hx : x ∈ l) : listMin l ≤ x := by
  cases l with
  | nil => cases hx
  | cons y t =>
    rcases List.mem_cons.mp hx with rfl | hx2
    · exact foldl_min_le_init t x
    · exact foldl_min_le_mem t y x hx2

theorem le_listMax {l : List ℚ} {x : ℚ} (hx : x ∈ l) : x ≤ listMax l := by
  cases l with
  | nil => cases hx
  | cons y t =>
    rcases List.mem_cons.mp hx with rfl | hx2
    · exact foldl_max_init_le t x
    · exact foldl_max_mem_le t y x hx2

theorem listMin_mem {l : List ℚ} (h : l ≠ []) : listMin l ∈ l := by
  cases l with
  | nil => exact absurd rfl h
  | cons y t =>
    rcases foldl_min_mem t y with h2 | h2
    · rw [listMin, h2]; exact List.mem_cons_self y t
    · exact List.mem_cons_of_mem y h2

theorem listMax_mem {l : List ℚ} (h : l ≠ []) : listMax l ∈ l := by
  cases l with
  | nil => exact absurd rfl h
  | cons y t =>
    rcases foldl_max_mem t y with h2 | h2
    · rw [listMax, h2]; exact List.mem_cons_self y t
    · exact List.mem_cons_of_mem y h2

/-- The per-element function `ScoreNormalizer.normalize` applies over a
pool `l` (1 in the degenerate branches). -/
def normFun (l : List ℚ) (x : ℚ) : ℚ :=
  if l.length ≤ 1 then 1
  else if listMax l = listMin l then 1
  else round4 (max 0 (min 1 ((x - listMin l) / (listMax l - listMin l))))

/-- The per-element function `PercentileCalculator.calculate` applies
over a pool `l` (1 in the singleton branch). -/
def percFun (l : List ℚ) (x : ℚ) : ℚ :=
  if l.length ≤ 1 then 1
  else round4 (((l.countP (fun t => decide (t < x)) : ℕ) : ℚ) / (l.length : ℚ))

theorem normalize_eq_map (l : List ℚ) : ScoreNormalizer.normalize l = l.map (normFun l) := by
  obtain _ | ⟨x, _ | ⟨y, xs⟩⟩ := l
  · rfl
  · simp [ScoreNormalizer.normalize, normFun]
  · have hlen : ¬ ((x :: y :: xs).length ≤ 1) := by
      simp [List.length_cons]
    show ScoreNormalizer.normalize (x :: y :: xs) = _
    rw [ScoreNormalizer.normalize]
    by_cases h : listMax (x :: y :: xs) = listMin (x :: y :: xs)
    · rw [if_pos h]
      have he : normFun (x :: y :: xs) = fun _ => (1 : ℚ) := by
        funext s
        rw [normFun, if_neg hlen, if_pos h]
      rw [he, List.map_const']
    · rw [if_neg h]
      apply List.map_congr_left
      intro s _
      rw [normFun, if_neg hlen, if_neg h]

theorem calculate_eq_map (l : List ℚ) :
    PercentileCalculator.calculate l = l.map (percFun l) := by
  obtain _ | ⟨x, _ | ⟨y, xs⟩⟩ := l
  · rfl
  · simp [PercentileCalculator.calculate, percFun]
  · have hlen : ¬ ((x :: y :: xs).length ≤ 1) := by
      simp [List.length_cons]
    show PercentileCalculator.calculate (x :: y :: xs) = _
    rw [PercentileCalculator.calculate]
    apply List.map_congr_left
    intro s _
    rw [percFun, if_neg hlen]

theorem zip_map_map {α β γ δ : Type} (l : List α) (f : α → β) (g : α → γ)
    (F : α × β × γ → δ) :
    (l.zip ((l.map f).zip (l.map g))).map F = l.map (fun x => F (x, f x, g x)) := by
  induction l with
  | nil => rfl
  | cons x t ih => simp only [List.map_cons, List.zip_cons_cons, ih]

/-- The raw score list of step 2 of the rankers. -/
def rawScores (pool : List (String × MatchResult)) : List ℚ :=
  pool.map (fun p => p.2.overall_score)

theorem unsortedResults_eq_map (b : Bool) (pool : List (String × MatchResult)) :
    unsortedResults b pool = pool.map (fun p =>
      rankOne b p (normFun (rawScores pool) p.2.overall_score)
        (percFun (rawScores pool) p.2.overall_score)) := by
  simp only [unsortedResults]
  rw [normalize_eq_map, calculate_eq_map, List.map_map, List.map_map]
  rw [zip_map_map]
  rfl

theorem unsortedResults_length (b : Bool) (pool : List (String × MatchResult)) :
    (unsortedResults b pool).length = pool.length := by
  rw [unsortedResults_eq_map, List.length_map]

theorem rankOne_overall (b : Bool) (p : String × MatchResult) (nz pc : ℚ) :
    (rankOne b p nz pc).overall_score = p.2.overall_score := rfl

theorem rankOne_rank (b : Bool) (p : String × MatchResult) (nz pc : ℚ) :
    (rankOne b p nz pc).rank = 0 := rfl

/-- Erase the rank field (the only field `assignRanks` touches). -/
def stripRank (r : RankingResult) : RankingResult := { r with rank := 0 }

theorem stripRank_overall (r : RankingResult) :
    (stripRank r).overall_score = r.overall_score := rfl

theorem stripRank_eq_self {r : RankingResult} (h : r.rank = 0) : stripRank r = r := by
  cases r
  simp only [stripRank]
  simp_all

theorem assignRanks_length (n : ℕ) (l : List RankingResult) :
    (assignRanks n l).length = l.length := by
  induction l generalizing n with
  | nil => rfl
  | cons r t ih => simp [assignRanks, ih]

theorem assignRanks_map_stripRank (n : ℕ) (l : List RankingResult) :
    (assignRanks n l).map stripRank = l.map stripRank := by
  induction l generalizing n with
  | nil => rfl
  | cons r t ih =>
    simp only [assignRanks, List.map_cons, ih]
    rfl

theorem assignRanks_map_rank (n : ℕ) (l : List RankingResult) :
    (assignRanks n l).map RankingResult.rank = List.range' n l.length := by
  induction l generalizing n with
  | nil => rfl
  | cons r t ih =>
    simp only [assignRanks, List.map_cons, List.length_cons, List.range'_succ, ih]

theorem assignRanks_head? (n : ℕ) (l : List RankingResult) :
    (assignRanks n l).head? = l.head?.map (fun r => { r with rank := n }) := by
  cases l <;> rfl

theorem mem_assignRanks {x : RankingResult} {n : ℕ} {l : List RankingResult}
    (h : x ∈ assignRanks n l) : ∃ y ∈ l, stripRank x = stripRank y := by
  induction l generalizing n with
  | nil => cases h
  | cons r t ih =>
    rcases List.mem_cons.mp h with rfl | h2
    · exact ⟨r, List.mem_cons_self r t, rfl⟩
    · obtain ⟨y, hy, he⟩ := ih h2
      exact ⟨y, List.mem_cons_of_mem r hy, he⟩

theorem mem_assignRanks_of_mem {y : RankingResult} {l : List RankingResult}
    (hy : y ∈ l) (n : ℕ) : ∃ x ∈ assignRanks n l, stripRank x = stripRank y := by
  induction l generalizing n with
  | nil => cases hy
  | cons r t ih =>
    rcases List.mem_cons.mp hy with rfl | h2
    · exact ⟨{ y with rank := n }, List.mem_cons_self _ _, rfl⟩
    · obtain ⟨x, hx, he⟩ := ih h2 (n + 1)
      exact ⟨x, List.mem_cons_of_mem _ hx, he⟩

theorem overall_of_stripRank_eq {x y : RankingResult} (h : stripRank x = stripRank y) :
    x.overall_score = y.overall_score := by
  have := congrArg RankingResult.overall_score h
  simpa [stripRank_overall] using this

theorem normalized_of_stripRank_eq {x y : RankingResult}
    (h : stripRank x = stripRank y) : x.normalized_score = y.normalized_score := by
  have := congrArg RankingResult.normalized_score h
  simpa [stripRank] using this

instance : IsTotal RankingResult scoreGE :=
  ⟨fun a b => le_total b.overall_score a.overall_score⟩

instance : IsTrans RankingResult scoreGE :=
  ⟨fun _ _ _ h1 h2 => le_trans h2 h1⟩

theorem pairwise_head?_rel {α : Type} {r : α → α → Prop} {l : List α} (h : l.Pairwise r)
    {y : α} (hh : l.head? = some y) : ∀ x ∈ l, x = y ∨ r y x := by
  cases l with
  | nil => cases hh
  | cons a t =>
    have hy : y = a := by
      simp only [List.head?_cons, Option.some_inj] at hh
      exact hh.symm
    subst hy
    intro x hx
    rcases List.mem_cons.mp hx with rfl | hx2
    · exact Or.inl rfl
    · exact Or.inr ((List.pairwise_cons.mp h).1 x hx2)

theorem pairwise_getLast?_rel {α : Type} {r : α → α → Prop} :
    ∀ {l : List α}, l.Pairwise r → ∀ {y : α}, l.getLast? = some y →
      ∀ x ∈ l, x = y ∨ r x y := by
  intro l
  induction l with
  | nil => intro _ y hy; cases hy
  | cons a t ih =>
    intro h y hy x hx
    cases t with
    | nil =>
      simp only [List.getLast?_singleton, Option.some_inj] at hy
      subst hy
      rcases List.mem_cons.mp hx with rfl | hx2
      · exact Or.inl rfl
      · cases hx2
    | cons b t2 =>
      rw [List.getLast?_cons_cons] at hy
      rcases List.mem_cons.mp hx with rfl | hx2
      · have hmem : y ∈ b :: t2 := List.mem_of_getLast?_eq_some hy
        exact Or.inr ((List.pairwise_cons.mp h).1 y hmem)
      · exact ih (List.pairwise_cons.mp h).2 hy x hx2

theorem filter_orderedInsert_pos {α : Type} (r : α → α → Prop) [DecidableRel r]
    (p : α → Bool) (a : α) (ha : p a = true) (hrel : ∀ b, p b = true → r a b) :
    ∀ l : List α, (List.orderedInsert r a l).filter p = a :: l.filter p := by
  intro l
  induction l with
  | nil => simp [List.orderedInsert, ha]
  | cons b t ih =>
    by_cases hab : r a b
    · rw [List.orderedInsert, if_pos hab]
      simp [List.filter_cons, ha]
    · have hpb : p b = false := by
        cases hpb : p b
        · rfl
        · exact absurd (hrel b hpb) hab
      rw [List.orderedInsert, if_neg hab]
      simp only [List.filter_cons, hpb, ih]
      simp [ha]

theorem filter_orderedInsert_neg {α : Type} (r : α → α → Prop) [DecidableRel r]
    (p : α → Bool) (a : α) (ha : p a = false) :
    ∀ l : List α, (List.orderedInsert r a l).filter p = l.filter p := by
  intro l
  induction l with
  | nil => simp [List.orderedInsert, ha]
  | cons b t ih =>
    by_cases hab : r a b
    · rw [List.orderedInsert, if_pos hab]
      simp [List.filter_cons, ha]
    · rw [List.orderedInsert, if_neg hab]
      simp only [List.filter_cons, ih]

/-- Stability of insertion sort: a predicate that holds only within one
equivalence class of the sort relation filters to the same sublist before
and after sorting, i.e. tied elements keep their original order. -/
theorem filter_insertionSort {α : Type} (r : α → α → Prop) [DecidableRel r]
    (p : α → Bool) (hp : ∀ x y, p x = true → p y = true → r x y) :
    ∀ l : List α, (List.insertionSort r l).filter p = l.filter p := by
  intro l
  induction l with
  | nil => rfl
  | cons a t ih =>
    rw [List.insertionSort]
    cases hpa : p a
    · rw [filter_orderedInsert_neg r p a hpa, ih]
      simp [List.filter_cons, hpa]
    · rw [filter_orderedInsert_pos r p a hpa (fun b hb => hp a b hpa hb), ih]
      simp [List.filter_cons, hpa]

theorem pairwise_scoreGE_assignRanks {n : ℕ} {l : List RankingResult}
    (h : l.Pairwise scoreGE) : (assignRanks n l).Pairwise scoreGE := by
  induction l generalizing n with
  | nil => exact List.Pairwise.nil
  | cons a t ih =>
    rcases List.pairwise_cons.mp h with ⟨ha, ht⟩
    rw [assignRanks]
    refine List.pairwise_cons.mpr ⟨?_, ih ht⟩
    intro x hx
    obtain ⟨y, hy, he⟩ := mem_assignRanks hx
    show x.overall_score ≤ ({ a with rank := n } : RankingResult).overall_score
    rw [overall_of_stripRank_eq he]
    exact ha y hy

theorem rankCore_eq {b : Bool} {pool : List (String × MatchResult)} (h : pool ≠ []) :
    rankCore b pool
      = assignRanks 1 (List.insertionSort scoreGE (unsortedResults b pool)) := by
  rw [rankCore, if_neg h]

theorem rankCore_length (b : Bool) (pool : List (String × MatchResult)) :
    (rankCore b pool).length = pool.length := by
  by_cases h : pool = []
  · subst h; rfl
  · rw [rankCore_eq h, assignRanks_length,
      (List.perm_insertionSort scoreGE (unsortedResults b pool)).length_eq,
      unsortedResults_length]

theorem rankCore_eq_nil_iff (b : Bool) (pool : List (String × MatchResult)) :
    rankCore b pool = [] ↔ pool = [] := by
  constructor
  · intro h
    have := rankCore_length b pool
    rw [h] at this
    exact List.length_eq_zero.mp this.symm
  · intro h; subst h; rfl

theorem rankCore_pairwise (b : Bool) (pool : List (String × MatchResult)) :
    (rankCore b pool).Pairwise scoreGE := by
  by_cases h : pool = []
  · subst h; exact List.Pairwise.nil
  · rw [rankCore_eq h]
    exact pairwise_scoreGE_assignRanks
      (List.sorted_insertionSort scoreGE (unsortedResults b pool))

theorem rankCore_map_rank (b : Bool) (pool : List (String × MatchResult)) :
    (rankCore b pool).map RankingResult.rank = List.range' 1 pool.length := by
  by_cases h : pool = []
  · subst h; rfl
  · rw [rankCore_eq h, assignRanks_map_rank,
      (List.perm_insertionSort scoreGE (unsortedResults b pool)).length_eq,
      unsortedResults_length]

theorem rankCore_stable (b : Bool) (pool : List (String × MatchResult)) (q : ℚ) :
    ((rankCore b pool).map stripRank).filter (fun t => decide (t.overall_score = q))
      = (unsortedResults b pool).filter (fun t => decide (t.overall_score = q)) := by
  by_cases h : pool = []
  · subst h; rfl
  · rw [rankCore_eq h, assignRanks_map_stripRank, List.filter_map]
    have hps : ((fun t => decide (t.overall_score = q)) ∘ stripRank)
        = fun t : RankingResult => decide (t.overall_score = q) := by
      funext t
      simp [Function.comp, stripRank_overall]
    rw [hps]
    rw [filter_insertionSort scoreGE _ (fun x y hx hy => by
      show y.overall_score ≤ x.overall_score
      rw [of_decide_eq_true hx, of_decide_eq_true hy])]
    apply List.map_congr_left ?_ |>.trans (List.map_id _)
    intro x hx
    have hxu := List.mem_of_mem_filter hx
    rw [unsortedResults_eq_map] at hxu
    obtain ⟨p, _, rfl⟩ := List.mem_map.mp hxu
    exact stripRank_eq_self (rankOne_rank b p _ _)

theorem rankOne_normalized (b : Bool) (p : String × MatchResult) (nz pc : ℚ) :
    (rankOne b p nz pc).normalized_score = round4 nz := rfl

theorem mem_of_head?_some {α : Type} {l : List α} {a : α} (h : l.head? = some a) :
    a ∈ l := by
  cases l with
  | nil => cases h
  | cons x t =>
    simp only [List.head?_cons, Option.some_inj] at h
    subst h
    exact List.mem_cons_self x t

theorem rankCore_head?_spec {b : Bool} {pool : List (String × MatchResult)}
    {t : RankingResult} (h : (rankCore b pool).head? = some t) :
    t.rank = 1 ∧ ∀ p ∈ pool, p.2.overall_score ≤ t.overall_score := by
  have hpool : pool ≠ [] := by
    intro he; subst he; cases h
  rw [rankCore_eq hpool, assignRanks_head?] at h
  obtain ⟨w, hw, rfl⟩ : ∃ w,
      (List.insertionSort scoreGE (unsortedResults b pool)).head? = some w
        ∧ t = { w with rank := 1 } := by
    cases hs : (List.insertionSort scoreGE (unsortedResults b pool)).head? with
    | none => rw [hs] at h; cases h
    | some w => rw [hs] at h; exact ⟨w, rfl, (Option.some_inj.mp h).symm⟩
  refine ⟨rfl, ?_⟩
  intro p hp
  have hmem : rankOne b p (normFun (rawScores pool) p.2.overall_score)
      (percFun (rawScores pool) p.2.overall_score) ∈ unsortedResults b pool := by
    rw [unsortedResults_eq_map]
    exact List.mem_map_of_mem _ hp
  have hmem2 : rankOne b p (normFun (rawScores pool) p.2.overall_score)
      (percFun (rawScores pool) p.2.overall_score)
        ∈ List.insertionSort scoreGE (unsortedResults b pool) :=
    ((List.perm_insertionSort scoreGE _).symm.mem_iff).mp hmem
  have hsorted : (List.insertionSort scoreGE (unsortedResults b pool)).Pairwise scoreGE :=
    List.sorted_insertionSort scoreGE _
  have hover : ({ w with rank := 1 } : RankingResult).overall_score = w.overall_score := rfl
  rcases pairwise_head?_rel hsorted hw _ hmem2 with he | hr
  · rw [hover, ← he, rankOne_overall]
  · rw [hover, ← rankOne_overall b p (normFun (rawScores pool) p.2.overall_score)
      (percFun (rawScores pool) p.2.overall_score)]
    exact hr

theorem rankCore_getLast?_spec {b : Bool} {pool : List (String × MatchResult)}
    {t : RankingResult} (h : (rankCore b pool).getLast? = some t) :
    ∀ p ∈ pool, t.overall_score ≤ p.2.overall_score := by
  have hpool : pool ≠ [] := by
    intro he; subst he; cases h
  intro p hp
  rw [rankCore_eq hpool] at h
  have hpair : (assignRanks 1 (List.insertionSort scoreGE (unsortedResults b pool))).Pairwise
      scoreGE := pairwise_scoreGE_assignRanks (List.sorted_insertionSort scoreGE _)
  have hmem : rankOne b p (normFun (rawScores pool) p.2.overall_score)
      (percFun (rawScores pool) p.2.overall_score) ∈ unsortedResults b pool := by
    rw [unsortedResults_eq_map]
    exact List.mem_map_of_mem _ hp
  have hmem2 : rankOne b p (normFun (rawScores pool) p.2.overall_score)
      (percFun (rawScores pool) p.2.overall_score)
        ∈ List.insertionSort scoreGE (unsortedResults b pool) :=
    ((List.perm_insertionSort scoreGE _).symm.mem_iff).mp hmem
  obtain ⟨x, hx, he⟩ := mem_assignRanks_of_mem hmem2 1
  have hxo : x.overall_score = p.2.overall_score :=
    (overall_of_stripRank_eq he).trans (rankOne_overall b p _ _)
  rcases pairwise_getLast?_rel hpair h x hx with rfl | hr
  · rw [hxo]
  · rw [← hxo]
    exact hr

theorem rankCore_mem_struct {b : Bool} {pool : List (String × MatchResult)}
    {t : RankingResult} (ht : t ∈ rankCore b pool) :
    ∃ p ∈ pool, t.overall_score = p.2.overall_score
      ∧ t.normalized_score = round4 (normFun (rawScores pool) p.2.overall_score) := by
  have hpool : pool ≠ [] := by
    intro he; subst he
    exact absurd ht (List.not_mem_nil t)
  rw [rankCore_eq hpool] at ht
  obtain ⟨y, hy, he⟩ := mem_assignRanks ht
  have hy_u : y ∈ unsortedResults b pool :=
    ((List.perm_insertionSort scoreGE _).mem_iff).mp hy
  rw [unsortedResults_eq_map] at hy_u
  obtain ⟨p, hp, rfl⟩ := List.mem_map.mp hy_u
  exact ⟨p, hp, (overall_of_stripRank_eq he).trans (rankOne_overall b p _ _),
    (normalized_of_stripRank_eq he).trans (rankOne_normalized b p _ _)⟩

theorem all_eq_of_maxmin {pool : List (String × MatchResult)}
    (h : listMax (rawScores pool) = listMin (rawScores pool)) :
    ∀ p ∈ pool, ∀ p' ∈ pool, p.2.overall_score = p'.2.overall_score := by
  intro p hp p' hp'
  have h1 : p.2.overall_score ∈ rawScores pool := List.mem_map_of_mem _ hp
  have h2 : p'.2.overall_score ∈ rawScores pool := List.mem_map_of_mem _ hp'
  have e1 : p.2.overall_score = listMin (rawScores pool) :=
    le_antisymm (h ▸ le_listMax h1) (listMin_le h1)
  have e2 : p'.2.overall_score = listMin (rawScores pool) :=
    le_antisymm (h ▸ le_listMax h2) (listMin_le h2)
  rw [e1, e2]

theorem normFun_listMax {l : List ℚ} (h2 : 1 < l.length)
    (hne : listMax l ≠ listMin l) : normFun l (listMax l) = 1 := by
  rw [normFun, if_neg (by omega), if_neg hne, div_self (sub_ne_zero.mpr hne),
    min_self, max_eq_right (by norm_num : (0:ℚ) ≤ 1), round4_one]

theorem normFun_listMin {l : List ℚ} (h2 : 1 < l.length)
    (hne : listMax l ≠ listMin l) : normFun l (listMin l) = 0 := by
  rw [normFun, if_neg (by omega), if_neg hne, sub_self, zero_div,
    min_eq_right (by norm_num : (0:ℚ) ≤ 1), max_self, round4_zero]

theorem rankCore_head_normalized {b : Bool} {pool : List (String × MatchResult)}
    {t : RankingResult} (h2 : 1 < pool.length)
    (hne : ¬ ∀ p ∈ pool, ∀ p' ∈ pool, p.2.overall_score = p'.2.overall_score)
    (h : (rankCore b pool).head? = some t) : t.normalized_score = 1 := by
  have hmax : ∀ p ∈ pool, p.2.overall_score ≤ t.overall_score :=
    (rankCore_head?_spec h).2
  obtain ⟨p₀, hp₀, hov, hnz⟩ := rankCore_mem_struct (mem_of_head?_some h)
  have hraw_len : 1 < (rawScores pool).length := by
    rw [rawScores, List.length_map]; exact h2
  have hpool : pool ≠ [] := by
    intro he; subst he; simp at h2
  have hraw_ne : rawScores pool ≠ [] := by
    intro he
    have := congrArg List.length he
    rw [rawScores, List.length_map] at this
    simp at this
    subst this
    exact hpool rfl
  have hmxmn : listMax (rawScores pool) ≠ listMin (rawScores pool) := by
    intro he
    exact hne (all_eq_of_maxmin he)
  have hle : ∀ x ∈ rawScores pool, x ≤ p₀.2.overall_score := by
    intro x hx
    obtain ⟨p, hp, rfl⟩ := List.mem_map.mp hx
    rw [← hov]
    exact hmax p hp
  have hmx : p₀.2.overall_score = listMax (rawScores pool) :=
    le_antisymm (le_listMax (List.mem_map_of_mem _ hp₀))
      (hle _ (listMax_mem hraw_ne))
  rw [hnz, hmx, normFun_listMax hraw_len hmxmn, round4_one]

theorem rankCore_getLast_normalized {b : Bool} {pool : List (String × MatchResult)}
    {t : RankingResult} (h2 : 1 < pool.length)
    (hne : ¬ ∀ p ∈ pool, ∀ p' ∈ pool, p.2.overall_score = p'.2.overall_score)
    (h : (rankCore b pool).getLast? = some t) : t.normalized_score = 0 := by
  have hmin : ∀ p ∈ pool, t.overall_score ≤ p.2.overall_score :=
    rankCore_getLast?_spec h
  obtain ⟨p₀, hp₀, hov, hnz⟩ := rankCore_mem_struct (List.mem_of_getLast?_eq_some h)
  have hraw_len : 1 < (rawScores pool).length := by
    rw [rawScores, List.length_map]; exact h2
  have hpool : pool ≠ [] := by
    intro he; subst he; simp at h2
  have hraw_ne : rawScores pool ≠ [] := by
    intro he
    have := congrArg List.length he
    rw [rawScores, List.length_map] at this
    simp at this
    subst this
    exact hpool rfl
  have hmxmn : listMax (rawScores pool) ≠ listMin (rawScores pool) := by
    intro he
    exact hne (all_eq_of_maxmin he)
  have hge : ∀ x ∈ rawScores pool, p₀.2.overall_score ≤ x := by
    intro x hx
    obtain ⟨p, hp, rfl⟩ := List.mem_map.mp hx
    rw [← hov]
    exact hmin p hp
  have hmn : p₀.2.overall_score = listMin (rawScores pool) :=
    le_antisymm (hge _ (listMin_mem hraw_ne))
      (listMin_le (List.mem_map_of_mem _ hp₀))
  rw [hnz, hmn, normFun_listMin hraw_len hmxmn, round4_zero]

theorem filter_sorted_eq_take {l : List RankingResult} (h : l.Pairwise scoreGE)
    (m : ℚ) :
    l.filter (fun r => decide (m ≤ r.overall_score))
      = l.take (l.countP (fun r => decide (m ≤ r.overall_score))) := by
  induction l with
  | nil => rfl
  | cons a t ih =>
    rcases List.pairwise_cons.mp h with ⟨ha, ht⟩
    by_cases hpa : m ≤ a.overall_score
    · rw [List.filter_cons, if_pos (decide_eq_true hpa),
        List.countP_cons, if_pos (decide_eq_true hpa),
        List.take_succ_cons, ih ht]
    · have hall : ∀ x ∈ t, ¬ ((fun r => decide (m ≤ r.overall_score)) x = true) := by
        intro x hx hx2
        have h1 : m ≤ x.overall_score := of_decide_eq_true hx2
        have h2 : x.overall_score ≤ a.overall_score := ha x hx
        exact hpa (le_trans h1 h2)
      have hna : ¬ (decide (m ≤ a.overall_score) = true) := by
        intro hx2
        exact hpa (of_decide_eq_true hx2)
      rw [List.filter_cons, if_neg hna, List.countP_cons, if_neg hna,
        List.filter_eq_nil_iff.mpr hall, List.countP_eq_zero.mpr hall]
      simp

theorem countP_assignRanks (n : ℕ) (l : List RankingResult) (m : ℚ) :
    (assignRanks n l).countP (fun r => decide (m ≤ r.overall_score))
      = l.countP (fun r => decide (m ≤ r.overall_score)) := by
  induction l generalizing n with
  | nil => rfl
  | cons a t ih =>
    rw [assignRanks, List.countP_cons, List.countP_cons, ih]
    rfl

theorem rankCore_countP (b : Bool) (pool : List (String × MatchResult)) (m : ℚ) :
    (rankCore b pool).countP (fun r => decide (m ≤ r.overall_score))
      = pool.countP (fun p => decide (m ≤ p.2.overall_score)) := by
  by_cases h : pool = []
  · subst h; rfl
  · rw [rankCore_eq h, countP_assignRanks,
      (List.perm_insertionSort scoreGE (unsortedResults b pool)).countP_eq,
      unsortedResults_eq_map, List.countP_map]
    rfl

theorem take_range' (s n m : ℕ) : (List.range' s n).take m = List.range' s (min m n) := by
  induction n generalizing s m with
  | zero => simp
  | succ k ih =>
    cases m with
    | zero => simp
    | succ j =>
      rw [List.range'_succ, List.take_succ_cons, ih, Nat.succ_min_succ,
        List.range'_succ]

/-! ### SkillsMatcher lemmas -/

theorem matchRequired_spec (cos : Emb → Emb → ℚ) (thr : ℚ) (rs : List String)
    (rEmb jEmb : String → Option Emb) (req : List String) :
    (SkillsMatcher.matchRequired cos thr rs rEmb jEmb req).1
        = req.filter (fun j => decide (thr ≤ (SkillsMatcher.findBestMatch cos j rs rEmb jEmb).1))
      ∧ (SkillsMatcher.matchRequired cos thr rs rEmb jEmb req).2.1
        = req.filter (fun j => ! decide (thr ≤ (SkillsMatcher.findBestMatch cos j rs rEmb jEmb).1))
      ∧ (SkillsMatcher.matchRequired cos thr rs rEmb jEmb req).2.2
        = req.map (fun j => (j, round4 (SkillsMatcher.findBestMatch cos j rs rEmb jEmb).1)) := by
  induction req with
  | nil => exact ⟨rfl, rfl, rfl⟩
  | cons j rest ih =>
    obtain ⟨ih1, ih2, ih3⟩ := ih
    rw [SkillsMatcher.matchRequired]
    by_cases hj : thr ≤ (SkillsMatcher.findBestMatch cos j rs rEmb jEmb).1
    · rw [if_pos hj]
      refine ⟨?_, ?_, ?_⟩ <;>
        simp [List.filter_cons, List.map_cons, hj, ih1, ih2, ih3]
    · rw [if_neg hj]
      refine ⟨?_, ?_, ?_⟩ <;>
        simp [List.filter_cons, List.map_cons, hj, ih1, ih2, ih3]

theorem filter_append_not_perm {α : Type} (p : α → Bool) (l : List α) :
    List.Perm (l.filter p ++ l.filter (fun x => ! p x)) l := by
  induction l with
  | nil => exact List.Perm.refl []
  | cons a t ih =>
    cases ha : p a with
    | true =>
      rw [List.filter_cons_of_pos ha,
        List.filter_cons_of_neg (by rw [ha]; simp)]
      exact (ih.cons a)
    | false =>
      rw [List.filter_cons_of_neg (by rw [ha]; simp),
        List.filter_cons_of_pos (by rw [ha]; rfl)]
      exact List.Perm.trans List.perm_middle (ih.cons a)

theorem substringScore_le_one (a b : String) : SkillsMatcher.substringScore a b ≤ 1 := by
  rw [SkillsMatcher.substringScore]
  split_ifs <;> norm_num

theorem tierScore_le_one {cos : Emb → Emb → ℚ} (hcos : ∀ a b, cos a b ≤ 1)
    (jobEmb resumeEmb : Option Emb) (resumeSkill jobSkill : String) :
    SkillsMatcher.tierScore cos jobEmb resumeEmb resumeSkill jobSkill ≤ 1 := by
  rcases jobEmb with _ | je
  · rcases resumeEmb with _ | re <;> exact substringScore_le_one resumeSkill jobSkill
  · rcases resumeEmb with _ | re
    · exact substringScore_le_one resumeSkill jobSkill
    · exact hcos re je

theorem findBestAux_bounds {cos : Emb → Emb → ℚ} (hcos : ∀ a b, cos a b ≤ 1)
    (jobEmb : Option Emb) (rEmb : String → Option Emb) (jobSkill : String) :
    ∀ (l : List String) (best : ℚ × String), 0 ≤ best.1 → best.1 ≤ 1 →
      0 ≤ (SkillsMatcher.findBestAux cos jobEmb rEmb jobSkill l best).1
        ∧ (SkillsMatcher.findBestAux cos jobEmb rEmb jobSkill l best).1 ≤ 1 := by
  intro l
  induction l with
  | nil => intro best h0 h1; exact ⟨h0, h1⟩
  | cons r rest ih =>
    intro best h0 h1
    rw [SkillsMatcher.findBestAux]
    by_cases hex : lowerStr r = lowerStr jobSkill
    · rw [if_pos hex]
      exact ⟨by norm_num, le_refl 1⟩
    · rw [if_neg hex]
      by_cases hlt : best.1 < SkillsMatcher.tierScore cos jobEmb (rEmb r) r jobSkill
      · rw [if_pos hlt]
        exact ih _ (le_of_lt (lt_of_le_of_lt h0 hlt))
          (tierScore_le_one hcos jobEmb (rEmb r) r jobSkill)
      · rw [if_neg hlt]
        exact ih best h0 h1

theorem findBestMatch_bounds {cos : Emb → Emb → ℚ} (hcos : ∀ a b, cos a b ≤ 1)
    (jobSkill : String) (rs : List String) (rEmb jEmb : String → Option Emb) :
    0 ≤ (SkillsMatcher.findBestMatch cos jobSkill rs rEmb jEmb).1
      ∧ (SkillsMatcher.findBestMatch cos jobSkill rs rEmb jEmb).1 ≤ 1 :=
  findBestAux_bounds hcos (jEmb jobSkill) rEmb jobSkill rs (0, "")
    (le_refl 0) (by norm_num)

theorem matchSkills_req_nil (cos : Emb → Emb → ℚ) (thr : ℚ) (rs nice : List String)
    (rEmb jEmb : String → Option Emb) :
    SkillsMatcher.matchSkills cos thr rs [] nice rEmb jEmb
      = SkillsMatcher.emptyResult 1 [] := rfl

theorem matchSkills_rs_nil (cos : Emb → Emb → ℚ) (thr : ℚ) {req : List String}
    (nice : List String) (rEmb jEmb : String → Option Emb) (hreq : req ≠ []) :
    SkillsMatcher.matchSkills cos thr [] req nice rEmb jEmb
      = SkillsMatcher.emptyResult 0 req := by
  rw [SkillsMatcher.matchSkills, if_neg hreq, if_pos rfl]

theorem matchSkills_main (cos : Emb → Emb → ℚ) (thr : ℚ) {rs req : List String}
    (nice : List String) (rEmb jEmb : String → Option Emb)
    (hreq : req ≠ []) (hrs : rs ≠ []) :
    SkillsMatcher.matchSkills cos thr rs req nice rEmb jEmb
      = { skills_score := round4
            (((SkillsMatcher.matchRequired cos thr rs rEmb jEmb req).1.length : ℚ)
              / (req.length : ℚ))
          matched_skills := (SkillsMatcher.matchRequired cos thr rs rEmb jEmb req).1
          missing_skills := (SkillsMatcher.matchRequired cos thr rs rEmb jEmb req).2.1
          bonus_skills := SkillsMatcher.matchNice cos thr rs rEmb jEmb nice
          skill_similarities := (SkillsMatcher.matchRequired cos thr rs rEmb jEmb req).2.2 } := by
  rw [SkillsMatcher.matchSkills, if_neg hreq, if_neg hrs]

/-! ### The claims -/

/-- C2: For every weight set accepted at construction (validation passed),
`ScoreAggregator.aggregate` clamps each input to [0,1] independently and
returns the weighted sum clamped to [0,1] and rounded to 4 decimals, so
the result is always in [0,1]; clamping the inputs first changes nothing;
and with the default weights, `aggregate(0.82, 0.90, 1.00, 1.00) = 0.9060`. -/
theorem C2_aggregate_contract (w : List (String × ℚ))
    (_hw : ScoreAggregator.validateWeights w = Except.ok ()) (a b c d : ℚ) :
    (0 ≤ ScoreAggregator.aggregate w a b c d ∧ ScoreAggregator.aggregate w a b c d ≤ 1)
    ∧ ScoreAggregator.aggregate w a b c d
        = ScoreAggregator.aggregate w (clamp01 a) (clamp01 b) (clamp01 c) (clamp01 d)
    ∧ ScoreAggregator.aggregate ScoreAggregator.DEFAULT_WEIGHTS (82/100) (90/100) 1 1
        = 906/1000 := by
  refine ⟨⟨?_, ?_⟩, ?_, by decide!⟩
  · exact round4_nonneg (clamp01_nonneg _)
  · exact round4_le_one (clamp01_le_one _)
  · simp only [ScoreAggregator.aggregate, clamp01_idem]

theorem C2_witness :
    ScoreAggregator.validateWeights ScoreAggregator.DEFAULT_WEIGHTS = Except.ok ()
    ∧ ((0 ≤ ScoreAggregator.aggregate ScoreAggregator.DEFAULT_WEIGHTS (1/2) 2 (-3) (3/4)
        ∧ ScoreAggregator.aggregate ScoreAggregator.DEFAULT_WEIGHTS (1/2) 2 (-3) (3/4) ≤ 1)
      ∧ ScoreAggregator.aggregate ScoreAggregator.DEFAULT_WEIGHTS (1/2) 2 (-3) (3/4)
          = ScoreAggregator.aggregate ScoreAggregator.DEFAULT_WEIGHTS
              (clamp01 (1/2)) (clamp01 2) (clamp01 (-3)) (clamp01 (3/4))
      ∧ ScoreAggregator.aggregate ScoreAggregator.DEFAULT_WEIGHTS (82/100) (90/100) 1 1
          = 906/1000) :=
  ⟨by with_unfolding_all rfl, C2_aggregate_contract ScoreAggregator.DEFAULT_WEIGHTS
    (by with_unfolding_all rfl) (1/2) 2 (-3) (3/4)⟩

/-- C5 (counterexample): the empty weight dictionary is missing all four
required keys, yet construction succeeds — `weights or DEFAULT_WEIGHTS`
treats the falsy empty dict as absent and silently uses the defaults. -/
theorem C5_counterexample :
    ScoreAggregator.init (some []) = Except.ok ScoreAggregator.DEFAULT_WEIGHTS
    ∧ ¬ ("semantic" ∈ (([] : List (String × ℚ)).map Prod.fst)) :=
  ⟨by with_unfolding_all rfl, by simp⟩

/-- C5 (amended): for every NON-EMPTY weight set supplied to the
constructor, either construction fails with a validation error, or the
set contains all four required keys and its values sum to 1.0 within
1e-6.  (An empty weight set is falsy in Python and is silently replaced
by the default weights, so the original claim fails on it.) -/
theorem C5_weights_validation (w : List (String × ℚ)) (hw : w ≠ []) :
    (∃ e, ScoreAggregator.init (some w) = Except.error e)
    ∨ ((∀ k ∈ ScoreAggregator.requiredKeys, k ∈ w.map Prod.fst)
      ∧ |(w.map Prod.snd).sum - 1| ≤ 1/1000000) := by
  simp only [ScoreAggregator.init, if_neg hw]
  rw [ScoreAggregator.validateWeights]
  by_cases h1 : ¬ (ScoreAggregator.requiredKeys.all (fun k => (w.map Prod.fst).contains k) = true)
  · rw [if_pos h1]
    exact Or.inl ⟨_, rfl⟩
  · rw [if_neg h1]
    by_cases h2 : 1/1000000 < |(w.map Prod.snd).sum - 1|
    · rw [if_pos h2]
      exact Or.inl ⟨_, rfl⟩
    · rw [if_neg h2]
      refine Or.inr ⟨?_, le_of_not_lt h2⟩
      intro k hk
      have hall := not_not.mp h1
      have hc := List.all_eq_true.mp hall k hk
      simpa using hc

theorem C5_witness :
    ScoreAggregator.DEFAULT_WEIGHTS ≠ []
    ∧ ((∃ e, ScoreAggregator.init (some ScoreAggregator.DEFAULT_WEIGHTS) = Except.error e)
      ∨ ((∀ k ∈ ScoreAggregator.requiredKeys,
            k ∈ ScoreAggregator.DEFAULT_WEIGHTS.map Prod.fst)
        ∧ |(ScoreAggregator.DEFAULT_WEIGHTS.map Prod.snd).sum - 1| ≤ 1/1000000)) :=
  ⟨by decide, C5_weights_validation ScoreAggregator.DEFAULT_WEIGHTS (by decide)⟩

/-- C7: `ExperienceScorer.score` treats negative input as 0, returns 1.0
when the requirement is 0 or met, and otherwise `1 − gap × penalty`
floored at 0 and rounded to 4 decimals; with the default penalty 0.15,
`score(3,5) = 0.70`, `score(7,5) = 1.0`, `score(0,5) = 0.25`, and
`score(x,0) = 1.0` for every `x ≥ 0`. -/
theorem C7_experience_score (cy ry : ℚ) :
    ExperienceScorer.score (15/100) cy ry
        = (if max 0 ry = 0 then 1
          else if max 0 ry ≤ max 0 cy then 1
          else round4 (max 0 (1 - (max 0 ry - max 0 cy) * (15/100))))
    ∧ ExperienceScorer.score (15/100) 3 5 = 70/100
    ∧ ExperienceScorer.score (15/100) 7 5 = 1
    ∧ ExperienceScorer.score (15/100) 0 5 = 25/100
    ∧ (0 ≤ cy → ExperienceScorer.score (15/100) cy 0 = 1) := by
  refine ⟨?_, by decide!, by decide!, by decide!, ?_⟩
  · simp only [ExperienceScorer.score]
    split_ifs <;> first | rfl | exact max0_round4 _
  · intro _
    simp [ExperienceScorer.score]

theorem C7_witness :
    (0 : ℚ) ≤ 3 ∧ ExperienceScorer.score (15/100) 3 0 = 1 :=
  ⟨by norm_num, (C7_experience_score 3 0).2.2.2.2 (by norm_num)⟩

/-- C8: `EducationScorer.score` maps each string to an ordinal level 0–5
(scanning keyword lists from the highest level down, first match wins,
which `detectLevel` embeds), returns 1.0 when the required level is 0,
the 0.30 partial-credit constant when the candidate level is 0 and the
required level is positive, 1.0 when the candidate level is at least the
required level, and otherwise `1 − gap × 0.20` floored at 0.0 (not at
0.30); and the three documented examples hold. -/
theorem C8_education_score (cand req : String) :
    EducationScorer.score cand req
        = (if EducationScorer.detectLevel req = 0 then 1
          else if EducationScorer.detectLevel cand = 0 then 3/10
          else if EducationScorer.detectLevel req ≤ EducationScorer.detectLevel cand then 1
          else round4 (max 0 (1 - ((EducationScorer.detectLevel req : ℚ)
            - (EducationScorer.detectLevel cand : ℚ)) * (2/10))))
    ∧ (∀ s, EducationScorer.detectLevel s ≤ 5)
    ∧ EducationScorer.score "Bachelor in CS" "Master in CS" = 8/10
    ∧ EducationScorer.score "" "Bachelor in CS" = 3/10
    ∧ EducationScorer.score "Bachelor" "PhD" = 6/10 := by
  refine ⟨?_, ?_, by decide!, by decide!, by decide!⟩
  · simp only [EducationScorer.score]
    split_ifs with h1 h2 h3 <;> try rfl
    have hlt : EducationScorer.detectLevel cand < EducationScorer.detectLevel req :=
      Nat.lt_of_not_le h3
    rw [max0_round4, Nat.cast_sub (le_of_lt hlt)]
  · intro s
    rw [EducationScorer.detectLevel]
    split_ifs with h
    · norm_num
    · split
      · next lv hf =>
        have hmem := List.mem_of_find?_eq_some hf
        have hall : ∀ x ∈ EducationScorer.EDUCATION_LEVELS, x.1 ≤ 5 := by decide
        exact hall lv hmem
      · next => norm_num

/-- C9: `PercentileCalculator.calculate` is order-preserving and
same-length; on pools of two or more it maps each score to (count of
pool elements strictly below) / N rounded to 4 decimals, so tied scores
receive identical percentiles; a singleton returns `[1.0]`, the empty
list returns `[]`, and the documented example holds. -/
theorem C9_percentiles (s : List ℚ) (x : ℚ) (i j : ℕ) :
    (2 ≤ s.length → PercentileCalculator.calculate s
        = s.map (fun y =>
            round4 (((s.countP (fun t => decide (t < y)) : ℕ) : ℚ) / (s.length : ℚ))))
    ∧ PercentileCalculator.calculate [x] = [1]
    ∧ PercentileCalculator.calculate ([] : List ℚ) = []
    ∧ (PercentileCalculator.calculate s).length = s.length
    ∧ (s[i]? = s[j]? →
        (PercentileCalculator.calculate s)[i]?
          = (PercentileCalculator.calculate s)[j]?)
    ∧ PercentileCalculator.calculate [95/100, 82/100, 74/100, 61/100, 45/100]
        = [8/10, 6/10, 4/10, 2/10, 0] := by
  refine ⟨?_, rfl, rfl, ?_, ?_, by decide!⟩
  · intro h2
    rw [calculate_eq_map]
    apply List.map_congr_left
    intro y _
    rw [percFun, if_neg (by omega)]
  · rw [calculate_eq_map, List.length_map]
  · rw [calculate_eq_map, List.getElem?_map, List.getElem?_map]
    intro h
    rw [h]

theorem C9_witness :
    2 ≤ ([1/2, 1/2, 1/4] : List ℚ).length
    ∧ PercentileCalculator.calculate [1/2, 1/2, 1/4]
        = ([1/2, 1/2, 1/4] : List ℚ).map (fun y =>
            round4 (((([1/2, 1/2, 1/4] : List ℚ).countP (fun t => decide (t < y)) : ℕ) : ℚ)
              / ((([1/2, 1/2, 1/4] : List ℚ).length : ℕ) : ℚ))) :=
  ⟨by decide, (C9_percentiles [1/2, 1/2, 1/4] 0 0 0).1 (by decide)⟩

/-- C3: `SkillsMatcher.match` with a duplicate-free required-skill list
returns disjoint `matched_skills`/`missing_skills` whose union is exactly
the required list (no duplicates, no omissions), with `skills_score =
|matched| / |required|` rounded to 4 decimals; an empty required list
scores 1.0 with nothing missing, a skill-less candidate scores 0.0 with
every required skill missing; and the documented example holds. -/
theorem C3_skills_partition (cos : Emb → Emb → ℚ) (thr : ℚ)
    (rEmb jEmb : String → Option Emb) (rs req nice : List String) (hnd : req.Nodup) :
    (∀ s, s ∈ req ↔
      (s ∈ (SkillsMatcher.matchSkills cos thr rs req nice rEmb jEmb).matched_skills
        ∨ s ∈ (SkillsMatcher.matchSkills cos thr rs req nice rEmb jEmb).missing_skills))
    ∧ (∀ s, ¬ (s ∈ (SkillsMatcher.matchSkills cos thr rs req nice rEmb jEmb).matched_skills
        ∧ s ∈ (SkillsMatcher.matchSkills cos thr rs req nice rEmb jEmb).missing_skills))
    ∧ ((SkillsMatcher.matchSkills cos thr rs req nice rEmb jEmb).matched_skills.Nodup
      ∧ (SkillsMatcher.matchSkills cos thr rs req nice rEmb jEmb).missing_skills.Nodup)
    ∧ List.Perm ((SkillsMatcher.matchSkills cos thr rs req nice rEmb jEmb).matched_skills
        ++ (SkillsMatcher.matchSkills cos thr rs req nice rEmb jEmb).missing_skills) req
    ∧ (req ≠ [] → rs ≠ [] →
        (SkillsMatcher.matchSkills cos thr rs req nice rEmb jEmb).skills_score
          = round4 ((((SkillsMatcher.matchSkills cos thr rs req nice
              rEmb jEmb).matched_skills.length : ℚ)) / (req.length : ℚ)))
    ∧ (req = [] →
        SkillsMatcher.matchSkills cos thr rs req nice rEmb jEmb
          = SkillsMatcher.emptyResult 1 [])
    ∧ (rs = [] → req ≠ [] →
        SkillsMatcher.matchSkills cos thr rs req nice rEmb jEmb
          = SkillsMatcher.emptyResult 0 req)
    ∧ SkillsMatcher.matchSkills (fun _ _ => (0:ℚ)) (13/20) ["python", "sql"]
        ["python", "sql", "kubernetes", "spark"] [] (fun _ => none) (fun _ => none)
        = ⟨1/2, ["python", "sql"], ["kubernetes", "spark"], [],
            [("python", 1), ("sql", 1), ("kubernetes", 0), ("spark", 0)]⟩ := by
  by_cases hreq : req = []
  · subst hreq
    refine ⟨by simp [matchSkills_req_nil, SkillsMatcher.emptyResult],
      by simp [matchSkills_req_nil, SkillsMatcher.emptyResult],
      by simp [matchSkills_req_nil, SkillsMatcher.emptyResult],
      by simp [matchSkills_req_nil, SkillsMatcher.emptyResult],
      fun h _ => absurd rfl h, fun _ => rfl, fun _ h => absurd rfl h, by decide!⟩
  · by_cases hrs : rs = []
    · subst hrs
      rw [matchSkills_rs_nil cos thr nice rEmb jEmb hreq]
      exact ⟨by simp [SkillsMatcher.emptyResult],
        by simp [SkillsMatcher.emptyResult],
        ⟨List.nodup_nil, hnd⟩,
        by simp [SkillsMatcher.emptyResult],
        fun _ h => absurd rfl h, fun h => absurd h hreq, fun _ _ => rfl, by decide!⟩
    · obtain ⟨hm, hms, _⟩ := matchRequired_spec cos thr rs rEmb jEmb req
      have hfields := matchSkills_main cos thr nice rEmb jEmb hreq hrs
      refine ⟨?_, ?_, ?_, ?_, ?_, fun h => absurd h hreq, fun h => absurd h hrs, by decide!⟩
      · intro s
        simp only [hfields, hm, hms]
        simp only [List.mem_filter]
        constructor
        · intro hs
          by_cases hps : thr ≤ (SkillsMatcher.findBestMatch cos s rs rEmb jEmb).1
          · exact Or.inl ⟨hs, decide_eq_true hps⟩
          · exact Or.inr ⟨hs, by rw [decide_eq_false hps]; rfl⟩
        · rintro (⟨hs, _⟩ | ⟨hs, _⟩) <;> exact hs
      · intro s
        simp only [hfields, hm, hms]
        rintro ⟨h1, h2⟩
        have hb1 := (List.mem_filter.mp h1).2
        have hb2 := (List.mem_filter.mp h2).2
        rw [hb1] at hb2
        cases hb2
      · constructor
        · simp only [hfields, hm]
          exact hnd.filter _
        · simp only [hfields, hms]
          exact hnd.filter _
      · simp only [hfields, hm, hms]
        exact filter_append_not_perm _ req
      · intro _ _
        simp only [hfields, hm]

theorem C3_witness :
    (["python", "sql", "kubernetes", "spark"] : List String).Nodup
    ∧ ((["python", "sql", "kubernetes", "spark"] : List String) = [] →
        SkillsMatcher.matchSkills (fun _ _ => (0:ℚ)) (13/20) ["python", "sql"]
          ["python", "sql", "kubernetes", "spark"] [] (fun _ => none) (fun _ => none)
          = SkillsMatcher.emptyResult 1 []) :=
  ⟨by decide, (C3_skills_partition (fun _ _ => (0:ℚ)) (13/20) (fun _ => none)
    (fun _ => none) ["python", "sql"] ["python", "sql", "kubernetes", "spark"] []
    (by decide)).2.2.2.2.2.1⟩

/-- C6 (counterexample): the nice-to-have skill "docker" gets no entry in
`skill_similarities` — the mapping is populated only for required skills
(`_match_nice_to_have` records nothing), so the claim as stated is false. -/
theorem C6_counterexample :
    "docker" ∈ (["docker"] : List String)
    ∧ ¬ ("docker" ∈ ((SkillsMatcher.matchSkills (fun _ _ => (0:ℚ)) (13/20) ["python"]
        ["python"] ["docker"] (fun _ => none)
        (fun _ => none)).skill_similarities.map Prod.fst)) := by
  decide!

/-- C6 (amended): when the candidate has at least one skill,
`skill_similarities` has exactly one entry per REQUIRED skill (none for
nice-to-have skills), keyed by the job-side skill name in required-list
order; when the candidate has no skills (and the required list is
non-empty) the mapping is empty; and every recorded value lies in [0,1]
whenever the cosine kernel is bounded by 1 (as real cosine similarity is). -/
theorem C6_similarities (cos : Emb → Emb → ℚ) (hcos : ∀ a b, cos a b ≤ 1) (thr : ℚ)
    (rs req nice : List String) (rEmb jEmb : String → Option Emb) :
    (rs ≠ [] →
      (SkillsMatcher.matchSkills cos thr rs req nice rEmb jEmb).skill_similarities.map
        Prod.fst = req)
    ∧ (rs = [] → req ≠ [] →
      (SkillsMatcher.matchSkills cos thr rs req nice rEmb jEmb).skill_similarities = [])
    ∧ (∀ pr ∈ (SkillsMatcher.matchSkills cos thr rs req nice rEmb jEmb).skill_similarities,
        0 ≤ pr.2 ∧ pr.2 ≤ 1) := by
  obtain ⟨_, _, hsim⟩ := matchRequired_spec cos thr rs rEmb jEmb req
  refine ⟨?_, ?_, ?_⟩
  · intro hrs
    by_cases hreq : req = []
    · subst hreq
      rw [matchSkills_req_nil]
      rfl
    · simp only [matchSkills_main cos thr nice rEmb jEmb hreq hrs, hsim, List.map_map]
      refine (List.map_congr_left ?_).trans (List.map_id req)
      intro a _
      rfl
  · intro hrs hreq
    subst hrs
    rw [matchSkills_rs_nil cos thr nice rEmb jEmb hreq]
    rfl
  · intro pr hpr
    by_cases hreq : req = []
    · subst hreq
      rw [matchSkills_req_nil] at hpr
      cases hpr
    · by_cases hrs : rs = []
      · subst hrs
        rw [matchSkills_rs_nil cos thr nice rEmb jEmb hreq] at hpr
        cases hpr
      · simp only [matchSkills_main cos thr nice rEmb jEmb hreq hrs, hsim] at hpr
        obtain ⟨j, _, rfl⟩ := List.mem_map.mp hpr
        obtain ⟨hb0, hb1⟩ := findBestMatch_bounds hcos j rs rEmb jEmb
        exact ⟨round4_nonneg hb0, round4_le_one hb1⟩

theorem C6_witness :
    (∀ a b : Emb, (fun _ _ => (0:ℚ)) a b ≤ 1)
    ∧ ((["python"] : List String) ≠ [] →
      (SkillsMatcher.matchSkills (fun _ _ => (0:ℚ)) (13/20) ["python"] ["py"] ["docker"]
        (fun _ => none) (fun _ => none)).skill_similarities.map Prod.fst = ["py"]) :=
  ⟨fun _ _ => by norm_num,
    (C6_similarities (fun _ _ => (0:ℚ)) (fun _ _ => by norm_num) (13/20)
      ["python"] ["py"] ["docker"] (fun _ => none) (fun _ => none)).1⟩

/-- C4: each of the four sub-scorer invocations of `MatchingEngine.match`
is isolated — a raised exception is replaced by the documented fallback
(semantic → 0.0; skills → score 0.0, every required job skill missing,
empty matched/bonus/similarities; experience → 0.0; education → 0.30),
the remaining steps run, and a fully populated `MatchResult` is still
returned (never an exception): a failing sub-scorer behaves exactly as a
sub-scorer that returned the fallback value, and even four simultaneous
failures yield the fully populated fallback result. -/
theorem C4_scorer_isolation (w : List (String × ℚ)) (jobRequired : List String)
    (semanticOut : Except Unit ℚ) (skillsOut : Except Unit SkillsResult)
    (experienceOut educationOut : Except Unit ℚ) :
    (MatchingEngine.matchFrom w jobRequired (Except.error ()) skillsOut
        experienceOut educationOut
      = MatchingEngine.matchFrom w jobRequired (Except.ok 0) skillsOut
          experienceOut educationOut)
    ∧ (MatchingEngine.matchFrom w jobRequired semanticOut (Except.error ())
        experienceOut educationOut
      = MatchingEngine.matchFrom w jobRequired semanticOut
          (Except.ok ⟨0, [], jobRequired, [], []⟩) experienceOut educationOut)
    ∧ (MatchingEngine.matchFrom w jobRequired semanticOut skillsOut
        (Except.error ()) educationOut
      = MatchingEngine.matchFrom w jobRequired semanticOut skillsOut
          (Except.ok 0) educationOut)
    ∧ (MatchingEngine.matchFrom w jobRequired semanticOut skillsOut
        experienceOut (Except.error ())
      = MatchingEngine.matchFrom w jobRequired semanticOut skillsOut
          experienceOut (Except.ok (3/10)))
    ∧ MatchingEngine.matchFrom w jobRequired (Except.error ()) (Except.error ())
        (Except.error ()) (Except.error ())
      = { overall_score := ScoreAggregator.aggregate w 0 0 0 (3/10)
          semantic_score := 0
          skills_score := 0
          experience_score := 0
          education_score := 3/10
          matched_skills := []
          missing_skills := jobRequired
          bonus_skills := []
          skill_similarities := [] } :=
  ⟨rfl, rfl, rfl, rfl, rfl⟩

/-- C1: both ranking operations (`MultiResumeRanker.rank` for
rank-resumes-for-job and `MultiJobRanker.rank` for rank-jobs-for-resume,
the two instantiations of `rankCore`) return, for every pool: a list
sorted descending by raw overall score in which tied scores keep their
original pool order (the filter of the output at any given score value
equals the filter of the unranked pool-order list); rank fields forming
exactly the dense sequence 1..N; a rank-1 head carrying the maximum raw
overall score; and, when the pool has more than one member and not all
raw scores are equal, normalized_score 1.0 for the best entry and 0.0
for the worst; an empty pool yields an empty list, not an error. -/
theorem C1_ranking_invariants (pool : List (String × MatchResult)) :
    (MultiResumeRanker.rank pool = rankCore false pool
      ∧ MultiJobRanker.rank pool = rankCore true pool)
    ∧ (∀ b, rankCore b pool = [] ↔ pool = [])
    ∧ (∀ b, (rankCore b pool).Pairwise scoreGE)
    ∧ (∀ b, unsortedResults b pool = pool.map (fun p =>
        rankOne b p (normFun (rawScores pool) p.2.overall_score)
          (percFun (rawScores pool) p.2.overall_score)))
    ∧ (∀ b (q : ℚ),
        ((rankCore b pool).map stripRank).filter (fun t => decide (t.overall_score = q))
          = (unsortedResults b pool).filter (fun t => decide (t.overall_score = q)))
    ∧ (∀ b, (rankCore b pool).map RankingResult.rank = List.range' 1 pool.length)
    ∧ (∀ b t, (rankCore b pool).head? = some t →
        t.rank = 1 ∧ ∀ p ∈ pool, p.2.overall_score ≤ t.overall_score)
    ∧ (1 < pool.length →
        (¬ ∀ p ∈ pool, ∀ p' ∈ pool, p.2.overall_score = p'.2.overall_score) →
        (∀ b t, (rankCore b pool).head? = some t → t.normalized_score = 1)
          ∧ (∀ b t, (rankCore b pool).getLast? = some t → t.normalized_score = 0)) :=
  ⟨⟨rfl, rfl⟩,
    fun b => rankCore_eq_nil_iff b pool,
    fun b => rankCore_pairwise b pool,
    fun b => unsortedResults_eq_map b pool,
    fun b q => rankCore_stable b pool q,
    fun b => rankCore_map_rank b pool,
    fun _ _ h => rankCore_head?_spec h,
    fun h2 hne =>
      ⟨fun _ _ h => rankCore_head_normalized h2 hne h,
        fun _ _ h => rankCore_getLast_normalized h2 hne h⟩⟩

/-- A two-member pool used to witness the conditional parts of the
ranking claims. -/
def demoMatch (q : ℚ) : MatchResult := ⟨q, 0, 0, 0, 0, [], [], [], []⟩

/-- Two candidates with distinct raw scores. -/
def demoPool : List (String × MatchResult) :=
  [("a", demoMatch (1/2)), ("b", demoMatch (3/4))]

theorem C1_witness :
    1 < demoPool.length
    ∧ (¬ ∀ p ∈ demoPool, ∀ p' ∈ demoPool, p.2.overall_score = p'.2.overall_score)
    ∧ ((∀ b t, (rankCore b demoPool).head? = some t → t.normalized_score = 1)
      ∧ (∀ b t, (rankCore b demoPool).getLast? = some t → t.normalized_score = 0)) :=
  ⟨by decide, by decide!,
    (C1_ranking_invariants demoPool).2.2.2.2.2.2.2 (by decide) (by decide!)⟩

/-- C10: `MultiResumeRanker.get_shortlist` (exposed as
`RankingEngine.shortlist_resumes`) returns exactly a prefix of the full
`rank()` output: the first `k = min(top_n, #\x7bpool members with
overall_score ≥ min_score\x7d)` ranked results, carrying the contiguous
ranks 1..k and keeping the full-pool percentile and normalized-score
fields (the entries are literally the ranked records, not recomputed),
with every returned entry scoring at least `min_score`. -/
theorem C10_shortlist_prefix (pool : List (String × MatchResult)) (top_n : ℕ)
    (min_score : ℚ) :
    (MultiResumeRanker.get_shortlist pool top_n min_score
      = (MultiResumeRanker.rank pool).take
          (min top_n (pool.countP (fun p => decide (min_score ≤ p.2.overall_score)))))
    ∧ RankingEngine.shortlist_resumes pool top_n min_score
        = MultiResumeRanker.get_shortlist pool top_n min_score
    ∧ (MultiResumeRanker.get_shortlist pool top_n min_score).map RankingResult.rank
        = List.range' 1
            (min top_n (pool.countP (fun p => decide (min_score ≤ p.2.overall_score))))
    ∧ ∀ r ∈ MultiResumeRanker.get_shortlist pool top_n min_score,
        min_score ≤ r.overall_score := by
  have hsorted := rankCore_pairwise false pool
  have hcount := rankCore_countP false pool min_score
  have h1 : MultiResumeRanker.get_shortlist pool top_n min_score
      = (MultiResumeRanker.rank pool).take
          (min top_n (pool.countP (fun p => decide (min_score ≤ p.2.overall_score)))) := by
    rw [MultiResumeRanker.get_shortlist, MultiResumeRanker.rank,
      filter_sorted_eq_take hsorted, hcount, List.take_take]
  refine ⟨h1, rfl, ?_, ?_⟩
  · rw [h1, List.map_take, MultiResumeRanker.rank, rankCore_map_rank, take_range']
    congr 1
    have hc : pool.countP (fun p => decide (min_score ≤ p.2.overall_score)) ≤ pool.length :=
      List.countP_le_length _
    omega
  · intro r hr
    rw [MultiResumeRanker.get_shortlist] at hr
    have hr2 := List.take_subset _ _ hr
    have hr3 := (List.mem_filter.mp hr2).2
    exact of_decide_eq_true hr3

end FTBot
